import Mathlib

/-!
# Verification of the Modelium simulation core

A shallow embedding of the Modelium simulation engine (`src/sim/engine.ts`),
its breakpoint evaluator and control state machine (`src/sim/worker.ts`),
over the data model of `src/model/schema.ts`.

Conventions of the embedding:
* JavaScript numbers are modelled as rationals (`ℚ`); the step counter is a `ℕ`.
* JavaScript `Map`s and `Record`s are modelled as insertion-ordered association
  lists (`Assoc`), with `mapGet` returning the entry for a key (first match)
  and `mapSet` updating an existing entry in place or appending a new one —
  exactly the observable `Map.set` / record-assignment semantics.
* `Infinity` (used by `computeNextTrigger` as a "never" sentinel) is modelled as
  `none` in an `Option ℚ`; a missing schedule entry (`?? Infinity`) likewise
  maps to the same "never" case.
* `Math.random` is modelled by an oracle `RandomOracle` supplying, for every call site
  (identified by the current step and the event-node id), the value drawn by
  `randomInt(min, max)`.  All theorems quantify over the oracle.
* The worker's `setInterval` timer is modelled by a boolean `loopId` flag
  (`true` iff a timer is installed); the asynchronous ticks themselves are not
  needed by the properties below, which concern single message handling.
-/

/-- Insertion-ordered association list, modelling a JS `Map<string, α>` or
`Record<string, α>`. -/
abbrev Assoc (α : Type) := List (String × α)

/-- `m.get(k)` / `m[k]`: the value stored for `k`, if any. -/
def mapGet {α : Type} : Assoc α → String → Option α
  | [], _ => none
  | (k', v) :: rest, k => if k' = k then some v else mapGet rest k

/-- `m.set(k, v)` / `m[k] = v`: update the entry for `k` in place if it exists,
otherwise append a new entry. -/
def mapSet {α : Type} : Assoc α → String → α → Assoc α
  | [], k, v => [(k, v)]
  | (k', v') :: rest, k, v =>
    if k' = k then (k', v) :: rest else (k', v') :: mapSet rest k v

/-- The keys of an association list, in order (`m.keys()`). -/
def mapKeys {α : Type} (m : Assoc α) : List String := m.map Prod.fst

/-! ## Data model (`src/model/schema.ts`) -/

/-- `NodeType = 'regular' | 'event'`. -/
inductive NodeType : Type
  | regular
  | event
deriving DecidableEq

/-- `EventType = 'random' | 'fixed'`. -/
inductive EventType : Type
  | random
  | fixed
deriving DecidableEq

/-- Edge polarity `'+' | '-'`. -/
inductive Polarity : Type
  | plus
  | minus
deriving DecidableEq

/-- `ModeliumNode`: optional fields are `Option`s, matching the schema. -/
structure ModeliumNode : Type where
  id : String
  label : String
  value : ℚ
  min : Option ℚ := none
  max : Option ℚ := none
  nodeType : Option NodeType := none
  eventType : Option EventType := none
  intervalMin : Option ℚ := none
  intervalMax : Option ℚ := none
  interval : Option ℚ := none
deriving DecidableEq

/-- `ModeliumEdge`. -/
structure ModeliumEdge : Type where
  id : String
  «from» : String
  «to» : String
  weight : ℚ
  polarity : Polarity
deriving DecidableEq

/-- `ModeliumModel` (the `version`/`meta` bookkeeping fields play no role in the
simulation core and are omitted). -/
structure ModeliumModel : Type where
  nodes : List ModeliumNode
  edges : List ModeliumEdge
deriving DecidableEq

/-! ## Simulation engine (`src/sim/engine.ts`) -/

/-- Which bound a breach hit: `'min' | 'max'`. -/
inductive Constraint : Type
  | min
  | max
deriving DecidableEq

/-- `BreachInfo` (`src/sim/types.ts`). -/
structure BreachInfo : Type where
  nodeId : String
  constraint : Constraint
  value : ℚ
  limit : ℚ
deriving DecidableEq

/-- `SimState`.  `eventNextTrigger` stores `Option ℚ` values: `none` models the
`Infinity` sentinel of the source. -/
structure SimState : Type where
  step : ℕ
  values : Assoc ℚ
  breached : Option BreachInfo
  eventNextTrigger : Assoc (Option ℚ)
  triggeredEvents : List String
deriving DecidableEq

/-- A compiled incoming-edge record `{ sourceId, weight, polarity }`, the
polarity already mapped to the numeric sign `1` or `-1`. -/
structure IncomingEdge : Type where
  sourceId : String
  weight : ℚ
  polarity : ℚ
deriving DecidableEq

/-- `CompiledGraph`. -/
structure CompiledGraph : Type where
  nodes : Assoc ModeliumNode
  regularNodes : Assoc ModeliumNode
  eventNodes : Assoc ModeliumNode
  incomingEdges : Assoc (List IncomingEdge)
  outgoingEdges : Assoc (List String)
deriving DecidableEq

/-- The `node.nodeType === 'event'` test. -/
def isEventNode (n : ModeliumNode) : Bool := n.nodeType = some NodeType.event

/-- The oracle standing in for `Math.random`-based `randomInt(min, max)`: given
the current step, the event-node id and the (defaulted) `min` and `max` bounds,
it yields the drawn value.  Theorems quantify over it. -/
abbrev RandomOracle : Type := ℕ → String → ℚ → ℚ → ℚ

/-- `computeNextTrigger(node, currentStep)`.  Returns `none` for the source's
`Infinity` (non-event node, or event node without a recognized `eventType`). -/
def computeNextTrigger (rand : RandomOracle) (node : ModeliumNode) (currentStep : ℕ) :
    Option ℚ :=
  if node.nodeType ≠ some NodeType.event then none
  else match node.eventType with
    | some EventType.random =>
      let mn := node.intervalMin.getD 1
      let mx := node.intervalMax.getD mn
      some ((currentStep : ℚ) + rand currentStep node.id mn mx)
    | some EventType.fixed =>
      some ((currentStep : ℚ) + node.interval.getD 1)
    | none => none

/-- `compileGraph(model)`.  The source fills all five maps inside two loops;
the independent accumulations are written as separate folds over the same
lists, in the same order. -/
def compileGraph (model : ModeliumModel) : CompiledGraph :=
  let nodes := model.nodes.foldl (fun m n => mapSet m n.id n) []
  let regularNodes :=
    model.nodes.foldl (fun m n => if isEventNode n then m else mapSet m n.id n) []
  let eventNodes :=
    model.nodes.foldl (fun m n => if isEventNode n then mapSet m n.id n else m) []
  let incoming0 : Assoc (List IncomingEdge) :=
    model.nodes.foldl (fun m n => mapSet m n.id []) []
  let outgoing0 : Assoc (List String) :=
    model.nodes.foldl (fun m n => mapSet m n.id []) []
  let incomingEdges := model.edges.foldl (fun m e =>
    match mapGet m e.«to» with
    | some inList =>
      mapSet m e.«to» (inList ++
        [⟨e.«from», e.weight, if e.polarity = Polarity.plus then 1 else -1⟩])
    | none => m) incoming0
  let outgoingEdges := model.edges.foldl (fun m e =>
    match mapGet m e.«from» with
    | some outList => mapSet m e.«from» (outList ++ [e.«to»])
    | none => m) outgoing0
  ⟨nodes, regularNodes, eventNodes, incomingEdges, outgoingEdges⟩

/-- `createInitialState(model)`. -/
def createInitialState (rand : RandomOracle) (model : ModeliumModel) : SimState :=
  let values := model.nodes.foldl (fun m n => mapSet m n.id n.value) []
  let eventNextTrigger := model.nodes.foldl (fun m n =>
    if isEventNode n then mapSet m n.id (computeNextTrigger rand n 0) else m) []
  ⟨0, values, none, eventNextTrigger, []⟩

/-- `newStep >= (state.eventNextTrigger[eventId] ?? Infinity)`: both a missing
entry and a stored `Infinity` (`none`) compare as never reached. -/
def triggerReached (trig : Option (Option ℚ)) (newStep : ℕ) : Bool :=
  match trig with
  | some (some t) => decide (t ≤ (newStep : ℚ))
  | _ => false

/-- Whether an event node fires at `newStep` given the current schedule. -/
def eventFires (state : SimState) (newStep : ℕ) (eventId : String) : Bool :=
  triggerReached (mapGet state.eventNextTrigger eventId) newStep

/-- Delivery of a firing event's pulse (its current value) into the delta
accumulator: per-edge to regular-node targets when the event has outgoing
edges, broadcast to every regular node when it has none. -/
def applyPulse (graph : CompiledGraph) (eventId : String) (eventValue : ℚ)
    (deltas : Assoc ℚ) : Assoc ℚ :=
  let outgoing := (mapGet graph.outgoingEdges eventId).getD []
  if outgoing.length > 0 then
    outgoing.foldl (fun d targetId =>
      if (mapGet graph.regularNodes targetId).isSome then
        mapSet d targetId ((mapGet d targetId).getD 0 + eventValue)
      else d) deltas
  else
    (mapKeys graph.regularNodes).foldl (fun d regularId =>
      mapSet d regularId ((mapGet d regularId).getD 0 + eventValue)) deltas

/-- The event-trigger loop of `computeStep`, carrying the accumulated
`(eventDeltas, triggeredEvents, newEventNextTrigger)`. -/
def processEvents (rand : RandomOracle) (state : SimState) (graph : CompiledGraph)
    (newStep : ℕ) :
    List (String × ModeliumNode) →
    Assoc ℚ × List String × Assoc (Option ℚ) →
    Assoc ℚ × List String × Assoc (Option ℚ)
  | [], acc => acc
  | (eventId, eventNode) :: rest, (deltas, triggered, nextTrig) =>
    if eventFires state newStep eventId then
      let eventValue := (mapGet state.values eventId).getD 0
      processEvents rand state graph newStep rest
        (applyPulse graph eventId eventValue deltas,
         triggered ++ [eventId],
         mapSet nextTrig eventId (computeNextTrigger rand eventNode newStep))
    else
      processEvents rand state graph newStep rest (deltas, triggered, nextTrig)

/-- The incoming-edge sum of one node: `weight × sourceValue × polaritySign`
over incoming edges, skipping edges whose source is an event node. -/
def edgeDelta (state : SimState) (graph : CompiledGraph)
    (incoming : List IncomingEdge) : ℚ :=
  incoming.foldl (fun acc e =>
    if (mapGet graph.eventNodes e.sourceId).isSome then acc
    else acc + e.weight * ((mapGet state.values e.sourceId).getD 0) * e.polarity) 0

/-- The per-node body of the node loop of `computeStep`: the node's new value
together with its breach candidate (the breach this node would report were it
the first breaching node of the step).  Event nodes pass through unchanged;
for regular nodes the `max` bound is checked before the `min` bound, the `min`
check seeing the possibly max-clamped value. -/
def processNode (state : SimState) (graph : CompiledGraph) (dt : ℚ)
    (deltas : Assoc ℚ) (nodeId : String) (node : ModeliumNode) :
    ℚ × Option BreachInfo :=
  let currentValue := (mapGet state.values nodeId).getD 0
  if isEventNode node then (currentValue, none)
  else
    let incoming := (mapGet graph.incomingEdges nodeId).getD []
    let delta := edgeDelta state graph incoming
    let eventDelta := (mapGet deltas nodeId).getD 0
    let newValue := currentValue + dt * delta + eventDelta
    let maxChecked : ℚ × Option BreachInfo :=
      match node.max with
      | some mx =>
        if newValue > mx then (mx, some ⟨nodeId, Constraint.max, newValue, mx⟩)
        else (newValue, none)
      | none => (newValue, none)
    match node.min with
    | some mn =>
      if maxChecked.1 < mn then
        (mn, match maxChecked.2 with
          | some b => some b
          | none => some ⟨nodeId, Constraint.min, maxChecked.1, mn⟩)
      else maxChecked
    | none => maxChecked

/-- The node loop of `computeStep`, carrying `(newValues, breach)`; a node's
breach candidate is recorded only when no breach has been recorded yet. -/
def processNodes (state : SimState) (graph : CompiledGraph) (dt : ℚ)
    (deltas : Assoc ℚ) :
    List (String × ModeliumNode) → Assoc ℚ × Option BreachInfo →
    Assoc ℚ × Option BreachInfo
  | [], acc => acc
  | (nodeId, node) :: rest, (vals, breach) =>
    let r := processNode state graph dt deltas nodeId node
    processNodes state graph dt deltas rest
      (mapSet vals nodeId r.1,
       match breach with
       | some b => some b
       | none => r.2)

/-- `computeStep(state, graph, dt)`. -/
def computeStep (rand : RandomOracle) (state : SimState) (graph : CompiledGraph)
    (dt : ℚ) : SimState :=
  let newStep := state.step + 1
  let ev := processEvents rand state graph newStep graph.eventNodes
    ([], [], state.eventNextTrigger)
  let nv := processNodes state graph dt ev.1 graph.nodes ([], none)
  ⟨newStep, nv.1, nv.2, ev.2.2, ev.2.1⟩

/-! ## Worker types and control state machine (`src/sim/types.ts`, `src/sim/worker.ts`) -/

/-- `BreakpointCondition = 'eq' | 'gt' | 'lt' | 'gte' | 'lte'`. -/
inductive BreakpointCondition : Type
  | eq
  | gt
  | lt
  | gte
  | lte
deriving DecidableEq

/-- `Breakpoint`. -/
structure Breakpoint : Type where
  nodeId : String
  condition : BreakpointCondition
  value : ℚ
deriving DecidableEq

/-- `BreakpointHit`. -/
structure BreakpointHit : Type where
  breakpoint : Breakpoint
  actualValue : ℚ
deriving DecidableEq

/-- `SimConfig`.  `intervalMs` is read with `?? 16` by the worker, hence the
`Option`. -/
structure SimConfig : Type where
  dt : ℚ
  steps : ℚ
  intervalMs : Option ℚ := none
deriving DecidableEq

/-- `SimStateSnapshot` as built by the worker: `{ step, values }`. -/
structure SimStateSnapshot : Type where
  step : ℕ
  values : Assoc ℚ
deriving DecidableEq

/-- Inbound `SimMessage`; `unknown` stands for any unrecognized message tag
(the `default:` branch of the worker's switch). -/
inductive SimMessage : Type
  | init (model : ModeliumModel) (config : SimConfig)
  | run
  | pause
  | resume
  | reset
  | stop
  | step
  | setSpeed (intervalMs : ℚ)
  | updateBreakpoints (breakpoints : List Breakpoint)
  | unknown

/-- Outbound `SimResult`. -/
inductive SimResult : Type
  | ready
  | state (snapshot : SimStateSnapshot)
  | paused (breach : BreachInfo)
  | resumed
  | done (history : List SimStateSnapshot)
  | error (message : String)
  | breakpointHit (hit : BreakpointHit)
  | stepped (snapshot : SimStateSnapshot)
deriving DecidableEq

/-- `checkBreakpointCondition(bp, actualValue)`: exact numeric comparisons. -/
def checkBreakpointCondition (bp : Breakpoint) (actualValue : ℚ) : Bool :=
  match bp.condition with
  | BreakpointCondition.eq => decide (actualValue = bp.value)
  | BreakpointCondition.gt => decide (actualValue > bp.value)
  | BreakpointCondition.lt => decide (actualValue < bp.value)
  | BreakpointCondition.gte => decide (actualValue ≥ bp.value)
  | BreakpointCondition.lte => decide (actualValue ≤ bp.value)

/-- `checkBreakpoints(values)` over a given breakpoint list: first hit in
registration order, skipping breakpoints whose node id is absent. -/
def checkBreakpoints (breakpoints : List Breakpoint) (values : Assoc ℚ) :
    Option BreakpointHit :=
  match breakpoints with
  | [] => none
  | bp :: rest =>
    match mapGet values bp.nodeId with
    | some actualValue =>
      if checkBreakpointCondition bp actualValue then
        some ⟨bp, actualValue⟩
      else checkBreakpoints rest values
    | none => checkBreakpoints rest values

/-- The worker's module-global mutable state.  `loopId` is `true` iff the
`setInterval` timer is installed. -/
structure WorkerState : Type where
  model : Option ModeliumModel
  config : Option SimConfig
  compiledGraph : Option CompiledGraph
  state : Option SimState
  initialState : Option SimState
  loopId : Bool
  history : List SimStateSnapshot
  intervalMs : ℚ
  breakpoints : List Breakpoint

/-- The worker's state when the module loads: everything `null`, empty
history, `intervalMs = 16`, no breakpoints, no timer. -/
def initialWorkerState : WorkerState :=
  ⟨none, none, none, none, none, false, [], 16, []⟩

/-- `runStep()`: one simulation step with the post-step message dispatch.
Returns the new worker state, the posted messages in order, and the boolean
the source returns (`true` iff the step neither breached, nor hit a
breakpoint, nor exhausted the step budget). -/
def runStep (rand : RandomOracle) (ws : WorkerState) :
    WorkerState × List SimResult × Bool :=
  match ws.state, ws.compiledGraph, ws.config with
  | some st, some graph, some config =>
    let newState := computeStep rand st graph config.dt
    let snapshot : SimStateSnapshot := ⟨newState.step, newState.values⟩
    let ws1 := { ws with state := some newState, history := ws.history ++ [snapshot] }
    match newState.breached with
    | some breach =>
      ({ ws1 with loopId := false },
       [SimResult.state snapshot, SimResult.paused breach], false)
    | none =>
      match checkBreakpoints ws1.breakpoints newState.values with
      | some hit =>
        ({ ws1 with loopId := false },
         [SimResult.state snapshot, SimResult.breakpointHit hit], false)
      | none =>
        if (newState.step : ℚ) ≥ config.steps then
          ({ ws1 with loopId := false },
           [SimResult.state snapshot, SimResult.done ws1.history], false)
        else (ws1, [SimResult.state snapshot], true)
  | _, _, _ => (ws, [], false)

/-- `self.onmessage`: one inbound message processed against the worker state,
yielding the new worker state and the posted messages in order. -/
def handleMessage (rand : RandomOracle) (ws : WorkerState) (msg : SimMessage) :
    WorkerState × List SimResult :=
  match msg with
  | SimMessage.init model config =>
    let initSt := createInitialState rand model
    ({ ws with
        loopId := false,
        model := some model,
        config := some config,
        intervalMs := config.intervalMs.getD 16,
        compiledGraph := some (compileGraph model),
        initialState := some initSt,
        state := some initSt,
        history := [] },
     [SimResult.ready])
  | SimMessage.run =>
    match ws.state with
    | none => (ws, [SimResult.error "Not initialized"])
    | some _ => ({ ws with history := [], loopId := true }, [])
  | SimMessage.pause => ({ ws with loopId := false }, [])
  | SimMessage.resume =>
    match ws.state with
    | none => (ws, [SimResult.error "Not initialized"])
    | some st =>
      ({ ws with state := some { st with breached := none }, loopId := true },
       [SimResult.resumed])
  | SimMessage.reset =>
    match ws.initialState with
    | none => ({ ws with loopId := false }, [SimResult.error "Not initialized"])
    | some initSt =>
      ({ ws with loopId := false, state := some initSt, history := [] },
       [SimResult.state ⟨initSt.step, initSt.values⟩])
  | SimMessage.stop => ({ ws with loopId := false }, [SimResult.done ws.history])
  | SimMessage.step =>
    match ws.state with
    | none => (ws, [SimResult.error "Not initialized"])
    | some st =>
      let ws1 := { ws with state := some { st with breached := none } }
      let r := runStep rand ws1
      if r.2.2 then
        match r.1.state with
        | some st' =>
          (r.1, r.2.1 ++ [SimResult.stepped ⟨st'.step, st'.values⟩])
        | none => (r.1, r.2.1)
      else (r.1, r.2.1)
  | SimMessage.setSpeed intervalMs => ({ ws with intervalMs := intervalMs }, [])
  | SimMessage.updateBreakpoints breakpoints =>
    ({ ws with breakpoints := breakpoints }, [])
  | SimMessage.unknown => (ws, [SimResult.error "Unknown message type"])

/-! ## Spec-side descriptions (for comparison with the engine)

These definitions follow the wording of the specification (§4.2 steps 3–4)
rather than the engine's control flow; theorems below relate them to
`processNode`. -/

/-- `rawNext = currentValue + dt × edgeSum + eventPulseSum` (spec §4.2 step 3;
identical to the unclamped `newValue` of `computeStep`). -/
def rawNextValue (state : SimState) (graph : CompiledGraph) (dt : ℚ)
    (deltas : Assoc ℚ) (nodeId : String) : ℚ :=
  (mapGet state.values nodeId).getD 0
    + dt * edgeDelta state graph ((mapGet graph.incomingEdges nodeId).getD [])
    + (mapGet deltas nodeId).getD 0

/-- Follows the spec's words (§4.2 step 4): the breach a node would report —
`max` checked before `min`, the `max` breach carrying the unclamped `rawNext`,
the `min` breach carrying the possibly max-checked value. -/
def specNodeBreach (state : SimState) (graph : CompiledGraph) (dt : ℚ)
    (deltas : Assoc ℚ) (nodeId : String) (node : ModeliumNode) :
    Option BreachInfo :=
  if isEventNode node then none
  else
    let raw := rawNextValue state graph dt deltas nodeId
    match node.max with
    | some mx =>
      if raw > mx then some ⟨nodeId, Constraint.max, raw, mx⟩
      else
        match node.min with
        | some mn => if raw < mn then some ⟨nodeId, Constraint.min, raw, mn⟩ else none
        | none => none
    | none =>
      match node.min with
      | some mn => if raw < mn then some ⟨nodeId, Constraint.min, raw, mn⟩ else none
      | none => none

/-- Follows the spec's words (§4.2 steps 4–5): the clamped post-step value of a
node — event nodes pass through, regular nodes clamp `rawNext` at `max` then at
`min`. -/
def specNodeValue (state : SimState) (graph : CompiledGraph) (dt : ℚ)
    (deltas : Assoc ℚ) (nodeId : String) (node : ModeliumNode) : ℚ :=
  if isEventNode node then (mapGet state.values nodeId).getD 0
  else
    let raw := rawNextValue state graph dt deltas nodeId
    let v1 := match node.max with
      | some mx => if raw > mx then mx else raw
      | none => raw
    match node.min with
    | some mn => if v1 < mn then mn else v1
    | none => v1

/-- The event deltas accumulated by `computeStep` (the first component of the
event-trigger loop's result). -/
def stepEventDeltas (rand : RandomOracle) (state : SimState)
    (graph : CompiledGraph) : Assoc ℚ :=
  (processEvents rand state graph (state.step + 1) graph.eventNodes
    ([], [], state.eventNextTrigger)).1

/-- `N` consecutive steps on a compiled model, from its initial state. -/
def stepN (rand : RandomOracle) (model : ModeliumModel) (dt : ℚ) : ℕ → SimState
  | 0 => createInitialState rand model
  | k + 1 => computeStep rand (stepN rand model dt k) (compileGraph model) dt

/-! ## Concrete instances used by witnesses and counterexamples -/

/-- A fixed random oracle (any oracle works for the properties below). -/
def rand0 : RandomOracle := fun _ _ _ _ => 0

/-- An event node of value `5` firing every step. -/
def evNode : ModeliumNode :=
  { id := "E", label := "E", value := 5, nodeType := some NodeType.event,
    eventType := some EventType.fixed, interval := some 1 }

/-- A plain regular node of value `0`. -/
def regNode : ModeliumNode := { id := "R", label := "R", value := 0 }

/-- An edgeless model holding one event node and one regular node. -/
def evModel : ModeliumModel := { nodes := [evNode, regNode], edges := [] }

/-- An event node with a fixed interval of `3`. -/
def evNode3 : ModeliumNode :=
  { id := "E", label := "E", value := 0, nodeType := some NodeType.event,
    eventType := some EventType.fixed, interval := some 3 }

/-- A model holding only `evNode3`. -/
def evModel3 : ModeliumModel := { nodes := [evNode3], edges := [] }

/-- An event node with both bounds defined and an out-of-bounds value. -/
def evNodeBounded : ModeliumNode :=
  { id := "E", label := "E", value := 50, min := some 0, max := some 10,
    nodeType := some NodeType.event, eventType := some EventType.fixed,
    interval := some 5 }

/-- A model holding only `evNodeBounded`. -/
def evBoundedModel : ModeliumModel := { nodes := [evNodeBounded], edges := [] }

/-- A second event node, the target of `evToEvModel`'s only edge. -/
def evNodeTarget : ModeliumNode :=
  { id := "F", label := "F", value := 7, nodeType := some NodeType.event,
    eventType := some EventType.fixed, interval := some 2 }

/-- A model where the firing event's only outgoing edge points at another
event node. -/
def evToEvModel : ModeliumModel :=
  { nodes := [evNode, evNodeTarget, regNode],
    edges := [{ id := "x", «from» := "E", «to» := "F", weight := 1,
                polarity := Polarity.plus }] }

/-- Node `A` of the single-edge model. -/
def nodeA (a : ℚ) : ModeliumNode := { id := "A", label := "A", value := a }

/-- Node `B` of the single-edge model. -/
def nodeB (b : ℚ) : ModeliumNode := { id := "B", label := "B", value := b }

/-- Two regular unconstrained nodes and a single edge `A→B`. -/
def singleEdgeModel (a b w : ℚ) (pol : Polarity) : ModeliumModel :=
  { nodes := [nodeA a, nodeB b],
    edges := [{ id := "e1", «from» := "A", «to» := "B", weight := w,
                polarity := pol }] }

/-- A two-node model with bounds: `X` would exceed its `max` and `Y` would
fall below its `min` in the same step. -/
def dualBreachModel : ModeliumModel :=
  { nodes :=
      [{ id := "S", label := "S", value := 100 },
       { id := "X", label := "X", value := 95, min := some 0, max := some 100 },
       { id := "Y", label := "Y", value := 5, min := some 0 }],
    edges :=
      [{ id := "e1", «from» := "S", «to» := "X", weight := 1,
         polarity := Polarity.plus },
       { id := "e2", «from» := "S", «to» := "Y", weight := 1,
         polarity := Polarity.minus }] }

/-- A breakpoint on a node id absent from the witness value map. -/
def bpAbsent : Breakpoint :=
  { nodeId := "X", condition := BreakpointCondition.gt, value := 5 }

/-- An exact-equality breakpoint on node `Y`. -/
def bpEq : Breakpoint :=
  { nodeId := "Y", condition := BreakpointCondition.eq, value := 3 }

/-- A worker state initialized on `evModel3` (with step budget 100). -/
def workerInit : WorkerState :=
  (handleMessage rand0 initialWorkerState
    (SimMessage.init evModel3 { dt := 1, steps := 100, intervalMs := some 16 })).1

/-! ## Properties of the association-list map operations -/

theorem mapGet_mapSet_self {α : Type} (m : Assoc α) (k : String) (v : α) :
    mapGet (mapSet m k v) k = some v := by
  induction m with
  | nil => simp [mapSet, mapGet]
  | cons hd tl ih =>
    obtain ⟨k', v'⟩ := hd
    by_cases h : k' = k <;> simp [mapSet, mapGet, h, ih]

theorem mapGet_mapSet_ne {α : Type} (m : Assoc α) {k k' : String} (v : α)
    (h : k ≠ k') : mapGet (mapSet m k v) k' = mapGet m k' := by
  induction m with
  | nil => simp [mapSet, mapGet, h]
  | cons hd tl ih =>
    obtain ⟨k₀, v₀⟩ := hd
    by_cases h₀ : k₀ = k
    · subst h₀; simp [mapSet, mapGet, h]
    · simp [mapSet, mapGet, h₀, ih]

theorem mapKeys_mapSet {α : Type} (m : Assoc α) (k : String) (v : α) :
    mapKeys (mapSet m k v) = if k ∈ mapKeys m then mapKeys m else mapKeys m ++ [k] := by
  induction m with
  | nil => simp [mapSet, mapKeys]
  | cons hd tl ih =>
    obtain ⟨k₀, v₀⟩ := hd
    by_cases h₀ : k₀ = k
    · subst h₀; simp [mapSet, mapKeys]
    · have hne : ¬ k = k₀ := fun h => h₀ h.symm
      simp only [mapSet, if_neg h₀, mapKeys, List.map_cons, List.mem_cons]
      simp only [mapKeys] at ih
      rw [ih]
      by_cases hmem : k ∈ tl.map Prod.fst <;> simp [hmem, hne]

theorem keys_nodup_mapSet {α : Type} (m : Assoc α) (k : String) (v : α)
    (h : (mapKeys m).Nodup) : (mapKeys (mapSet m k v)).Nodup := by
  rw [mapKeys_mapSet]
  by_cases hmem : k ∈ mapKeys m
  · simpa [hmem]
  · simp only [hmem, if_false]
    simpa [List.nodup_append] using ⟨h, hmem⟩

theorem mapGet_eq_none_iff {α : Type} (m : Assoc α) (k : String) :
    mapGet m k = none ↔ k ∉ mapKeys m := by
  induction m with
  | nil => simp [mapGet, mapKeys]
  | cons hd tl ih =>
    obtain ⟨k₀, v₀⟩ := hd
    by_cases h₀ : k₀ = k
    · subst h₀; simp [mapGet, mapKeys]
    · have : ¬ k = k₀ := fun h => h₀ h.symm
      simp [mapGet, mapKeys, h₀, this, ih]

theorem mapGet_eq_some_of_mem {α : Type} {m : Assoc α} {k : String} {v : α}
    (hnd : (mapKeys m).Nodup) (hmem : (k, v) ∈ m) : mapGet m k = some v := by
  induction m with
  | nil => simp at hmem
  | cons hd tl ih =>
    obtain ⟨k₀, v₀⟩ := hd
    simp only [mapKeys, List.map_cons, List.nodup_cons] at hnd
    rcases List.mem_cons.mp hmem with heq | htl
    · rw [Prod.mk.injEq] at heq
      simp [mapGet, heq.1, heq.2]
    · have hk : k₀ ≠ k := by
        rintro rfl
        exact hnd.1 (List.mem_map.mpr ⟨(k₀, v), htl, rfl⟩)
      simp [mapGet, hk, ih hnd.2 htl]

theorem mem_of_mapGet_eq_some {α : Type} {m : Assoc α} {k : String} {v : α}
    (h : mapGet m k = some v) : (k, v) ∈ m := by
  induction m with
  | nil => simp [mapGet] at h
  | cons hd tl ih =>
    obtain ⟨k₀, v₀⟩ := hd
    by_cases h₀ : k₀ = k
    · subst h₀
      simp only [mapGet, if_pos rfl, if_true, eq_self_iff_true, Option.some.injEq] at h
      subst h
      exact List.mem_cons_self _ _
    · simp only [mapGet, if_neg h₀] at h
      exact List.mem_cons_of_mem _ (ih h)


/-! ## The node loop of `computeStep` -/

theorem processNode_eq (state : SimState) (graph : CompiledGraph) (dt : ℚ)
    (deltas : Assoc ℚ) (nodeId : String) (node : ModeliumNode) :
    processNode state graph dt deltas nodeId node =
      (specNodeValue state graph dt deltas nodeId node,
       specNodeBreach state graph dt deltas nodeId node) := by
  cases hn : isEventNode node <;>
    simp only [processNode, specNodeValue, specNodeBreach, rawNextValue, hn,
      Bool.false_eq_true, if_false, if_true, reduceIte] <;>
    cases node.max <;> cases node.min <;>
    simp only [] <;> split_ifs <;> simp_all

theorem processNodes_breach_some (state : SimState) (graph : CompiledGraph)
    (dt : ℚ) (deltas : Assoc ℚ) (entries : List (String × ModeliumNode))
    (vals : Assoc ℚ) (b : BreachInfo) :
    (processNodes state graph dt deltas entries (vals, some b)).2 = some b := by
  induction entries generalizing vals with
  | nil => rfl
  | cons hd tl ih =>
    obtain ⟨k, n⟩ := hd
    simpa [processNodes] using ih _

theorem processNodes_breach (state : SimState) (graph : CompiledGraph)
    (dt : ℚ) (deltas : Assoc ℚ) (entries : List (String × ModeliumNode))
    (vals : Assoc ℚ) :
    (processNodes state graph dt deltas entries (vals, none)).2 =
      entries.findSome?
        (fun p => (processNode state graph dt deltas p.1 p.2).2) := by
  induction entries generalizing vals with
  | nil => rfl
  | cons hd tl ih =>
    obtain ⟨k, n⟩ := hd
    cases hb : (processNode state graph dt deltas k n).2 with
    | none => simp [processNodes, hb, List.findSome?, ih]
    | some b => simp [processNodes, hb, List.findSome?, processNodes_breach_some]

theorem processNodes_values_notmem (state : SimState) (graph : CompiledGraph)
    (dt : ℚ) (deltas : Assoc ℚ) (entries : List (String × ModeliumNode))
    (acc : Assoc ℚ × Option BreachInfo) (k : String)
    (hk : k ∉ mapKeys entries) :
    mapGet (processNodes state graph dt deltas entries acc).1 k =
      mapGet acc.1 k := by
  induction entries generalizing acc with
  | nil => rfl
  | cons hd tl ih =>
    obtain ⟨k₀, n₀⟩ := hd
    obtain ⟨vals, br⟩ := acc
    simp only [mapKeys, List.map_cons, List.mem_cons, not_or] at hk
    simp only [processNodes]
    rw [ih _ (by simpa [mapKeys] using hk.2)]
    exact mapGet_mapSet_ne _ _ fun h => hk.1 h.symm

theorem processNodes_values (state : SimState) (graph : CompiledGraph)
    (dt : ℚ) (deltas : Assoc ℚ) (entries : List (String × ModeliumNode))
    (acc : Assoc ℚ × Option BreachInfo) (k : String) (n : ModeliumNode)
    (hnd : (mapKeys entries).Nodup) (hmem : (k, n) ∈ entries) :
    mapGet (processNodes state graph dt deltas entries acc).1 k =
      some (processNode state graph dt deltas k n).1 := by
  induction entries generalizing acc with
  | nil => simp at hmem
  | cons hd tl ih =>
    obtain ⟨k₀, n₀⟩ := hd
    obtain ⟨vals, br⟩ := acc
    simp only [mapKeys, List.map_cons, List.nodup_cons] at hnd
    rcases List.mem_cons.mp hmem with heq | htl
    · rw [Prod.mk.injEq] at heq
      obtain ⟨hk, hn⟩ := heq
      subst hk; subst hn
      simp only [processNodes]
      rw [processNodes_values_notmem _ _ _ _ _ _ _ (by simpa [mapKeys] using hnd.1)]
      exact mapGet_mapSet_self _ _ _
    · exact ih _ hnd.2 htl

/-! ## The event-trigger loop of `computeStep` -/

theorem processEvents_no_fire (rand : RandomOracle) (state : SimState)
    (graph : CompiledGraph) (newStep : ℕ)
    (entries : List (String × ModeliumNode))
    (acc : Assoc ℚ × List String × Assoc (Option ℚ))
    (h : ∀ p ∈ entries, eventFires state newStep p.1 = false) :
    processEvents rand state graph newStep entries acc = acc := by
  induction entries generalizing acc with
  | nil => rfl
  | cons hd tl ih =>
    obtain ⟨eid, n⟩ := hd
    obtain ⟨d, tr, nt⟩ := acc
    have hf : eventFires state newStep eid = false := h (eid, n) (List.mem_cons_self _ _)
    simp only [processEvents, hf, Bool.false_eq_true, if_false]
    exact ih _ fun p hp => h p (List.mem_cons_of_mem _ hp)

theorem applyPulse_no_regular_target (graph : CompiledGraph) (eventId : String)
    (eventValue : ℚ) (deltas : Assoc ℚ)
    (hne : (mapGet graph.outgoingEdges eventId).getD [] ≠ [])
    (hreg : ∀ t ∈ (mapGet graph.outgoingEdges eventId).getD [],
      mapGet graph.regularNodes t = none) :
    applyPulse graph eventId eventValue deltas = deltas := by
  unfold applyPulse
  have hlen : ((mapGet graph.outgoingEdges eventId).getD []).length > 0 :=
    List.length_pos.mpr hne
  simp only [hlen, if_true, reduceIte]
  generalize hl : (mapGet graph.outgoingEdges eventId).getD [] = l
  rw [hl] at hreg
  clear hl hne hlen
  induction l generalizing deltas with
  | nil => rfl
  | cons t rest ih =>
    have ht : mapGet graph.regularNodes t = none := hreg t (List.mem_cons_self _ _)
    simp only [List.foldl_cons, ht, Option.isSome_none, Bool.false_eq_true, if_false]
    exact ih _ fun x hx => hreg x (List.mem_cons_of_mem _ hx)

theorem processEvents_deltas (rand : RandomOracle) (state : SimState)
    (graph : CompiledGraph) (newStep : ℕ)
    (entries : List (String × ModeliumNode)) (d : Assoc ℚ) (tr : List String)
    (nt : Assoc (Option ℚ))
    (h : ∀ p ∈ entries, eventFires state newStep p.1 = true →
      (mapGet graph.outgoingEdges p.1).getD [] ≠ [] ∧
      ∀ t ∈ (mapGet graph.outgoingEdges p.1).getD [],
        mapGet graph.regularNodes t = none) :
    (processEvents rand state graph newStep entries (d, tr, nt)).1 = d := by
  induction entries generalizing d tr nt with
  | nil => rfl
  | cons hd tl ih =>
    obtain ⟨eid, n⟩ := hd
    by_cases hf : eventFires state newStep eid = true
    · have hout := h (eid, n) (List.mem_cons_self _ _) hf
      simp only [processEvents, hf, if_true, reduceIte]
      rw [applyPulse_no_regular_target graph eid _ d hout.1 hout.2]
      exact ih _ _ _ fun p hp => h p (List.mem_cons_of_mem _ hp)
    · simp only [processEvents, hf, if_false, reduceIte]
      exact ih _ _ _ fun p hp => h p (List.mem_cons_of_mem _ hp)

theorem processEvents_triggered (rand : RandomOracle) (state : SimState)
    (graph : CompiledGraph) (newStep : ℕ)
    (entries : List (String × ModeliumNode)) (d : Assoc ℚ) (tr : List String)
    (nt : Assoc (Option ℚ)) :
    (processEvents rand state graph newStep entries (d, tr, nt)).2.1 =
      tr ++ (entries.filter
        (fun p => eventFires state newStep p.1)).map Prod.fst := by
  induction entries generalizing d tr nt with
  | nil => simp [processEvents]
  | cons hd tl ih =>
    obtain ⟨eid, n⟩ := hd
    by_cases hf : eventFires state newStep eid = true
    · simp only [processEvents, hf, if_true, reduceIte]
      rw [ih]
      simp [List.filter_cons, hf]
    · simp only [processEvents, hf, if_false, reduceIte, Bool.false_eq_true]
      rw [ih]
      simp [List.filter_cons, hf]

theorem processEvents_nextTrigger_notmem (rand : RandomOracle)
    (state : SimState) (graph : CompiledGraph) (newStep : ℕ)
    (entries : List (String × ModeliumNode)) (d : Assoc ℚ) (tr : List String)
    (nt : Assoc (Option ℚ)) (eid : String) (hk : eid ∉ mapKeys entries) :
    mapGet (processEvents rand state graph newStep entries (d, tr, nt)).2.2 eid =
      mapGet nt eid := by
  induction entries generalizing d tr nt with
  | nil => rfl
  | cons hd tl ih =>
    obtain ⟨k₀, n₀⟩ := hd
    simp only [mapKeys, List.map_cons, List.mem_cons, not_or] at hk
    by_cases hf : eventFires state newStep k₀ = true
    · simp only [processEvents, hf, if_true, reduceIte]
      rw [ih _ _ _ (by simpa [mapKeys] using hk.2)]
      exact mapGet_mapSet_ne _ _ fun h => hk.1 h.symm
    · simp only [processEvents, hf, if_false, reduceIte]
      exact ih _ _ _ (by simpa [mapKeys] using hk.2)

theorem processEvents_nextTrigger (rand : RandomOracle) (state : SimState)
    (graph : CompiledGraph) (newStep : ℕ)
    (entries : List (String × ModeliumNode)) (d : Assoc ℚ) (tr : List String)
    (nt : Assoc (Option ℚ)) (eid : String) (node : ModeliumNode)
    (hnd : (mapKeys entries).Nodup) (hmem : (eid, node) ∈ entries) :
    mapGet (processEvents rand state graph newStep entries (d, tr, nt)).2.2 eid =
      if eventFires state newStep eid
      then some (computeNextTrigger rand node newStep)
      else mapGet nt eid := by
  induction entries generalizing d tr nt with
  | nil => simp at hmem
  | cons hd tl ih =>
    obtain ⟨k₀, n₀⟩ := hd
    simp only [mapKeys, List.map_cons, List.nodup_cons] at hnd
    rcases List.mem_cons.mp hmem with heq | htl
    · rw [Prod.mk.injEq] at heq
      obtain ⟨hk, hn⟩ := heq
      subst hk; subst hn
      have hnot : eid ∉ mapKeys tl := by simpa [mapKeys] using hnd.1
      by_cases hf : eventFires state newStep eid = true
      · simp only [processEvents, hf, if_true, reduceIte]
        rw [processEvents_nextTrigger_notmem _ _ _ _ _ _ _ _ _ hnot]
        exact mapGet_mapSet_self _ _ _
      · simp only [processEvents, hf, if_false, reduceIte, Bool.false_eq_true]
        exact processEvents_nextTrigger_notmem _ _ _ _ _ _ _ _ _ hnot
    · have heid : eid ∈ tl.map Prod.fst := List.mem_map.mpr ⟨(eid, node), htl, rfl⟩
      have hne : k₀ ≠ eid := fun h => hnd.1 (h ▸ heid)
      by_cases hf : eventFires state newStep k₀ = true
      · simp only [processEvents, hf, if_true, reduceIte]
        rw [ih _ _ _ hnd.2 htl, mapGet_mapSet_ne _ _ hne]
      · simp only [processEvents, hf, if_false, reduceIte]
        exact ih _ _ _ hnd.2 htl

/-! ## `computeStep` field characterizations -/

theorem computeStep_step (rand : RandomOracle) (state : SimState)
    (graph : CompiledGraph) (dt : ℚ) :
    (computeStep rand state graph dt).step = state.step + 1 := rfl

theorem computeStep_breached (rand : RandomOracle) (state : SimState)
    (graph : CompiledGraph) (dt : ℚ) :
    (computeStep rand state graph dt).breached =
      graph.nodes.findSome? (fun p =>
        (processNode state graph dt (stepEventDeltas rand state graph)
          p.1 p.2).2) := by
  simp only [computeStep, stepEventDeltas]
  exact processNodes_breach _ _ _ _ _ _

theorem computeStep_values (rand : RandomOracle) (state : SimState)
    (graph : CompiledGraph) (dt : ℚ) (k : String) (n : ModeliumNode)
    (hnd : (mapKeys graph.nodes).Nodup) (hmem : (k, n) ∈ graph.nodes) :
    mapGet (computeStep rand state graph dt).values k =
      some (processNode state graph dt (stepEventDeltas rand state graph)
        k n).1 := by
  simp only [computeStep, stepEventDeltas]
  exact processNodes_values _ _ _ _ _ _ _ _ hnd hmem

theorem computeStep_triggered (rand : RandomOracle) (state : SimState)
    (graph : CompiledGraph) (dt : ℚ) :
    (computeStep rand state graph dt).triggeredEvents =
      (graph.eventNodes.filter
        (fun p => eventFires state (state.step + 1) p.1)).map Prod.fst := by
  simp only [computeStep]
  exact processEvents_triggered _ _ _ _ _ _ _ _

theorem computeStep_nextTrigger (rand : RandomOracle) (state : SimState)
    (graph : CompiledGraph) (dt : ℚ) (eid : String) (node : ModeliumNode)
    (hnd : (mapKeys graph.eventNodes).Nodup)
    (hmem : (eid, node) ∈ graph.eventNodes) :
    mapGet (computeStep rand state graph dt).eventNextTrigger eid =
      if eventFires state (state.step + 1) eid
      then some (computeNextTrigger rand node (state.step + 1))
      else mapGet state.eventNextTrigger eid := by
  simp only [computeStep]
  exact processEvents_nextTrigger _ _ _ _ _ _ _ _ _ _ hnd hmem

/-! ## `compileGraph` and `createInitialState` characterizations -/

theorem mapSet_append {α : Type} (m : Assoc α) (k : String) (v : α)
    (h : k ∉ mapKeys m) : mapSet m k v = m ++ [(k, v)] := by
  induction m with
  | nil => rfl
  | cons hd tl ih =>
    obtain ⟨k₀, v₀⟩ := hd
    simp only [mapKeys, List.map_cons, List.mem_cons, not_or] at h
    have : k₀ ≠ k := fun heq => h.1 heq.symm
    simp [mapSet, this, ih (by simpa [mapKeys] using h.2)]

theorem foldl_mapSet_cond {α : Type} (p : ModeliumNode → Bool)
    (g : ModeliumNode → α) :
    ∀ (l : List ModeliumNode) (acc : Assoc α),
      (l.map ModeliumNode.id).Nodup →
      (∀ n ∈ l, n.id ∉ mapKeys acc) →
      l.foldl (fun m n => if p n then mapSet m n.id (g n) else m) acc =
        acc ++ (l.filter p).map (fun n => (n.id, g n))
  | [], acc, _, _ => by simp
  | hd :: tl, acc, hnd, hfresh => by
    simp only [List.map_cons, List.nodup_cons] at hnd
    by_cases hp : p hd
    · have hset : mapSet acc hd.id (g hd) = acc ++ [(hd.id, g hd)] :=
        mapSet_append _ _ _ (hfresh hd (List.mem_cons_self _ _))
      have hfresh' : ∀ n ∈ tl, n.id ∉ mapKeys (acc ++ [(hd.id, g hd)]) := by
        intro n hn
        simp only [mapKeys, List.map_append, List.mem_append, List.map_cons,
          List.map_nil, List.mem_singleton, not_or]
        refine ⟨hfresh n (List.mem_cons_of_mem _ hn), fun heq => hnd.1 ?_⟩
        rw [← heq]
        exact List.mem_map.mpr ⟨n, hn, rfl⟩
      rw [List.foldl_cons, if_pos hp, hset,
        foldl_mapSet_cond p g tl _ hnd.2 hfresh']
      simp [List.filter_cons, hp]
    · rw [List.foldl_cons, if_neg hp,
        foldl_mapSet_cond p g tl _ hnd.2
          (fun n hn => hfresh n (List.mem_cons_of_mem _ hn))]
      simp [List.filter_cons, hp]

theorem foldl_mapSet_all {α : Type} (g : ModeliumNode → α)
    (l : List ModeliumNode) (acc : Assoc α)
    (hnd : (l.map ModeliumNode.id).Nodup)
    (hfresh : ∀ n ∈ l, n.id ∉ mapKeys acc) :
    l.foldl (fun m n => mapSet m n.id (g n)) acc =
      acc ++ l.map (fun n => (n.id, g n)) := by
  rw [List.foldl_ext _ (fun m n => if (fun _ => true) n then mapSet m n.id (g n) else m)
    _ (fun m n _ => by simp),
    foldl_mapSet_cond _ g l acc hnd hfresh]
  simp

theorem mapKeys_entries {α : Type} (g : ModeliumNode → α)
    (l : List ModeliumNode) :
    mapKeys (l.map (fun n => (n.id, g n))) = l.map ModeliumNode.id := by
  simp [mapKeys, List.map_map]

theorem compileGraph_nodes (model : ModeliumModel)
    (hnd : (model.nodes.map ModeliumNode.id).Nodup) :
    (compileGraph model).nodes =
      model.nodes.map (fun n => (n.id, n)) := by
  simpa using foldl_mapSet_all id model.nodes [] hnd (by simp [mapKeys])

theorem compileGraph_eventNodes (model : ModeliumModel)
    (hnd : (model.nodes.map ModeliumNode.id).Nodup) :
    (compileGraph model).eventNodes =
      (model.nodes.filter isEventNode).map (fun n => (n.id, n)) := by
  simpa using foldl_mapSet_cond isEventNode id model.nodes [] hnd (by simp [mapKeys])

theorem compileGraph_regularNodes (model : ModeliumModel)
    (hnd : (model.nodes.map ModeliumNode.id).Nodup) :
    (compileGraph model).regularNodes =
      (model.nodes.filter (fun n => !isEventNode n)).map (fun n => (n.id, n)) := by
  have hext : model.nodes.foldl
      (fun m n => if isEventNode n then m else mapSet m n.id n) [] =
      model.nodes.foldl
        (fun m n => if !isEventNode n then mapSet m n.id n else m) [] :=
    List.foldl_ext _ _ _ (fun m n _ => by cases h : isEventNode n <;> simp [h])
  show model.nodes.foldl
      (fun m n => if isEventNode n then m else mapSet m n.id n) [] = _
  rw [hext]
  simpa using foldl_mapSet_cond (fun n => !isEventNode n) id model.nodes []
    hnd (by simp [mapKeys])

theorem createInitialState_values (rand : RandomOracle) (model : ModeliumModel)
    (hnd : (model.nodes.map ModeliumNode.id).Nodup) :
    (createInitialState rand model).values =
      model.nodes.map (fun n => (n.id, n.value)) := by
  simpa using
    foldl_mapSet_all ModeliumNode.value model.nodes [] hnd (by simp [mapKeys])

theorem createInitialState_nextTrigger (rand : RandomOracle)
    (model : ModeliumModel)
    (hnd : (model.nodes.map ModeliumNode.id).Nodup) :
    (createInitialState rand model).eventNextTrigger =
      (model.nodes.filter isEventNode).map
        (fun n => (n.id, computeNextTrigger rand n 0)) := by
  simpa using foldl_mapSet_cond isEventNode
    (fun n => computeNextTrigger rand n 0) model.nodes [] hnd (by simp [mapKeys])

theorem createInitialState_step (rand : RandomOracle) (model : ModeliumModel) :
    (createInitialState rand model).step = 0 := rfl

/-! ## Claim C1: single-edge integration formula -/

/-- C1: For a model whose nodes are all regular, with a single edge from node
`A` to node `B` with weight `w` and positive polarity, one step with time
increment `dt` sets `B`'s new value to exactly `B + dt·w·A` (reading `A`'s
previous-step value), with no breach recorded when `B` is unconstrained; with
negative polarity the sign of the contribution is negated. -/
theorem single_edge_step_exact (rand : RandomOracle) (dt a b w : ℚ) :
    (mapGet (computeStep rand
        (createInitialState rand (singleEdgeModel a b w Polarity.plus))
        (compileGraph (singleEdgeModel a b w Polarity.plus)) dt).values "B" =
      some (b + dt * w * a) ∧
     mapGet (computeStep rand
        (createInitialState rand (singleEdgeModel a b w Polarity.plus))
        (compileGraph (singleEdgeModel a b w Polarity.plus)) dt).values "A" =
      some a ∧
     (computeStep rand
        (createInitialState rand (singleEdgeModel a b w Polarity.plus))
        (compileGraph (singleEdgeModel a b w Polarity.plus)) dt).breached =
      none) ∧
    (mapGet (computeStep rand
        (createInitialState rand (singleEdgeModel a b w Polarity.minus))
        (compileGraph (singleEdgeModel a b w Polarity.minus)) dt).values "B" =
      some (b - dt * w * a) ∧
     (computeStep rand
        (createInitialState rand (singleEdgeModel a b w Polarity.minus))
        (compileGraph (singleEdgeModel a b w Polarity.minus)) dt).breached =
      none) := by
  refine ⟨⟨?_, ?_, ?_⟩, ?_, ?_⟩ <;>
  · simp only [computeStep, createInitialState, compileGraph, singleEdgeModel,
      nodeA, nodeB, isEventNode, processEvents, processNodes, processNode,
      edgeDelta, applyPulse, mapGet, mapSet, mapKeys, List.foldl,
      triggerReached, eventFires]
    simp
    try ring

/-! ## Claim C2: breach selection and clamping discipline -/

/-- C2: In every step, each regular node's `rawNext` value is bound-checked
`max` before `min` (as expressed by `specNodeBreach`, which follows the spec's
wording); the step's recorded breach is the first breach candidate in
compiled-map insertion order (`List.findSome?`), so at most one breach is
recorded per step and none exactly when no node breaches; every node — also
every breaching node that is not reported — is still written back with its
clamped value (`specNodeValue`). -/
theorem breach_first_in_order_max_before_min (rand : RandomOracle)
    (state : SimState) (graph : CompiledGraph) (dt : ℚ)
    (hnd : (mapKeys graph.nodes).Nodup) :
    ((computeStep rand state graph dt).breached =
      graph.nodes.findSome? (fun p =>
        specNodeBreach state graph dt (stepEventDeltas rand state graph)
          p.1 p.2)) ∧
    ((computeStep rand state graph dt).breached = none ↔
      ∀ p ∈ graph.nodes,
        specNodeBreach state graph dt (stepEventDeltas rand state graph)
          p.1 p.2 = none) ∧
    (∀ p ∈ graph.nodes,
      mapGet (computeStep rand state graph dt).values p.1 =
        some (specNodeValue state graph dt (stepEventDeltas rand state graph)
          p.1 p.2)) := by
  have hb : (computeStep rand state graph dt).breached =
      graph.nodes.findSome? (fun p =>
        specNodeBreach state graph dt (stepEventDeltas rand state graph)
          p.1 p.2) := by
    rw [computeStep_breached]
    congr 1
    funext p
    rw [processNode_eq]
  refine ⟨hb, ?_, ?_⟩
  · rw [hb]
    exact List.findSome?_eq_none_iff
  · intro p hp
    rw [computeStep_values rand state graph dt p.1 p.2 hnd hp, processNode_eq]

/-- Witness for C2 on a concrete model in which one node would exceed its
`max` and another would fall below its `min` in the same step. -/
theorem breach_first_in_order_max_before_min_witness :
    ((computeStep rand0 (createInitialState rand0 dualBreachModel)
        (compileGraph dualBreachModel) 1).breached =
      (compileGraph dualBreachModel).nodes.findSome? (fun p =>
        specNodeBreach (createInitialState rand0 dualBreachModel)
          (compileGraph dualBreachModel) 1
          (stepEventDeltas rand0 (createInitialState rand0 dualBreachModel)
            (compileGraph dualBreachModel)) p.1 p.2)) ∧
    (mapGet (computeStep rand0 (createInitialState rand0 dualBreachModel)
        (compileGraph dualBreachModel) 1).values "Y" =
      some (specNodeValue (createInitialState rand0 dualBreachModel)
        (compileGraph dualBreachModel) 1
        (stepEventDeltas rand0 (createInitialState rand0 dualBreachModel)
          (compileGraph dualBreachModel)) "Y"
        { id := "Y", label := "Y", value := 5, min := some 0 })) :=
  ⟨(breach_first_in_order_max_before_min rand0
      (createInitialState rand0 dualBreachModel)
      (compileGraph dualBreachModel) 1 (by decide)).1,
   (breach_first_in_order_max_before_min rand0
      (createInitialState rand0 dualBreachModel)
      (compileGraph dualBreachModel) 1 (by decide)).2.2
     ("Y", { id := "Y", label := "Y", value := 5, min := some 0 })
     (by decide)⟩

/-! ## Claim C3: clamping invariant -/

/-- Counterexample to C3 as stated: in `evBoundedModel` the only node has
`min = 0 ≤ max = 10`, yet after one step its reported value is `50`, outside
`[0, 10]` — event nodes pass through the step unclamped. -/
theorem clamping_invariant_counterexample :
    evNodeBounded.min = some 0 ∧ evNodeBounded.max = some 10 ∧
    mapGet (computeStep rand0 (createInitialState rand0 evBoundedModel)
      (compileGraph evBoundedModel) 1).values "E" = some 50 ∧
    ¬ ((50 : ℚ) ≤ 10) := by
  refine ⟨rfl, rfl, ?_, by norm_num⟩
  decide

/-- C3 (amended): the clamping invariant holds for every *regular* node: for
every model with `min ≤ max` wherever both bounds are defined, after every
step, every regular node's reported value lies within `[min, max]` whenever
both bounds are defined on that node, regardless of the unclamped computed
value.  (Event nodes pass through the step unclamped, so the invariant as
stated fails for them.) -/
theorem clamping_invariant_regular (rand : RandomOracle) (state : SimState)
    (graph : CompiledGraph) (dt : ℚ) (k : String) (n : ModeliumNode)
    (mn mx : ℚ) (hnd : (mapKeys graph.nodes).Nodup)
    (hmem : (k, n) ∈ graph.nodes) (hreg : isEventNode n = false)
    (hmn : n.min = some mn) (hmx : n.max = some mx) (hle : mn ≤ mx) :
    ∃ v, mapGet (computeStep rand state graph dt).values k = some v ∧
      mn ≤ v ∧ v ≤ mx := by
  rw [computeStep_values rand state graph dt k n hnd hmem, processNode_eq]
  refine ⟨_, rfl, ?_⟩
  simp only [specNodeValue, hreg, hmn, hmx, Bool.false_eq_true, if_false]
  split_ifs with h1 h2 h3 <;>
    constructor <;> first | exact le_refl _ | exact hle | linarith

/-- Witness for C3 (amended): node `X` of `dualBreachModel` extended with both
bounds. -/
theorem clamping_invariant_regular_witness :
    ∃ v, mapGet (computeStep rand0 (createInitialState rand0 dualBreachModel)
      (compileGraph dualBreachModel) 1).values "X" = some v ∧
      (0 : ℚ) ≤ v ∧ v ≤ 100 :=
  clamping_invariant_regular rand0 (createInitialState rand0 dualBreachModel)
    (compileGraph dualBreachModel) 1 "X"
    { id := "X", label := "X", value := 95, min := some 0, max := some 100 }
    0 100 (by decide) (by decide) (by decide) rfl rfl (by norm_num)

/-! ## Claim C4: `dt = 0` steps -/

/-- Counterexample to C4 as stated: in `evModel` (event node `E` of value `5`
firing at step 1, regular node `R` of value `0`), a step with `dt = 0` changes
`R` from `0` to `5`: the event pulse is added to the accumulator without being
scaled by `dt`. -/
theorem dt_zero_counterexample :
    mapGet (createInitialState rand0 evModel).values "R" = some 0 ∧
    mapGet (computeStep rand0 (createInitialState rand0 evModel)
      (compileGraph evModel) 0).values "R" = some 5 ∧
    ¬ ((5 : ℚ) = 0) := by
  refine ⟨by decide, ?_, by norm_num⟩
  simp only [computeStep, createInitialState, compileGraph, evModel, evNode,
    regNode, isEventNode, processEvents, processNodes, processNode, edgeDelta,
    applyPulse, mapGet, mapSet, mapKeys, List.foldl, triggerReached,
    eventFires, computeNextTrigger]
  norm_num
  simp [mapGet]

/-- The per-node body is the identity when the scaled edge sum vanishes, no
event delta reaches the node, and the node's current value respects its own
bounds. -/
theorem processNode_no_delta (state : SimState) (graph : CompiledGraph)
    (dt : ℚ) (deltas : Assoc ℚ) (k : String) (n : ModeliumNode)
    (hdelta : dt * edgeDelta state graph
      ((mapGet graph.incomingEdges k).getD []) = 0)
    (hd0 : (mapGet deltas k).getD 0 = 0)
    (hbmin : ∀ mn, n.min = some mn → mn ≤ (mapGet state.values k).getD 0)
    (hbmax : ∀ mx, n.max = some mx → (mapGet state.values k).getD 0 ≤ mx) :
    processNode state graph dt deltas k n =
      ((mapGet state.values k).getD 0, none) := by
  rw [processNode_eq]
  have hraw : rawNextValue state graph dt deltas k =
      (mapGet state.values k).getD 0 := by
    simp [rawNextValue, hdelta, hd0]
  cases hev : isEventNode n
  · have hv : specNodeValue state graph dt deltas k n =
        (mapGet state.values k).getD 0 := by
      simp only [specNodeValue, hev, Bool.false_eq_true, if_false, hraw]
      cases hmx : n.max <;> cases hmn : n.min <;>
        simp only [] <;> split_ifs with h1 <;>
        first
        | rfl
        | (exact absurd (hbmin _ hmn) (by linarith))
        | (exact absurd (hbmax _ hmx) (by linarith))
    have hb : specNodeBreach state graph dt deltas k n = none := by
      simp only [specNodeBreach, hev, Bool.false_eq_true, if_false, hraw]
      cases hmx : n.max <;> cases hmn : n.min <;>
        simp only [] <;> split_ifs with h1 <;>
        first
        | rfl
        | (exact absurd (hbmin _ hmn) (by linarith))
        | (exact absurd (hbmax _ hmx) (by linarith))
    rw [hv, hb]
  · simp [specNodeValue, specNodeBreach, hev]

/-- C4 (amended): a step computed with `dt = 0` in which no event fires leaves
every node's value unchanged and records no breach, provided every node's
current value respects its own bounds (the raw value then equals the current,
already-bounded value, so clamping cannot trigger).  When an event does fire,
its pulse is applied unscaled by `dt` and the claim fails
(`dt_zero_counterexample`). -/
theorem dt_zero_no_change (rand : RandomOracle) (state : SimState)
    (graph : CompiledGraph) (hnd : (mapKeys graph.nodes).Nodup)
    (hnofire : ∀ p ∈ graph.eventNodes,
      eventFires state (state.step + 1) p.1 = false)
    (hbounds : ∀ p ∈ graph.nodes,
      (∀ mn, p.2.min = some mn → mn ≤ (mapGet state.values p.1).getD 0) ∧
      (∀ mx, p.2.max = some mx → (mapGet state.values p.1).getD 0 ≤ mx)) :
    (∀ p ∈ graph.nodes,
      mapGet (computeStep rand state graph 0).values p.1 =
        some ((mapGet state.values p.1).getD 0)) ∧
    (computeStep rand state graph 0).breached = none := by
  have hdeltas : stepEventDeltas rand state graph = [] := by
    simp only [stepEventDeltas,
      processEvents_no_fire rand state graph (state.step + 1) _ _ hnofire]
  have hnode : ∀ p ∈ graph.nodes,
      processNode state graph 0 (stepEventDeltas rand state graph) p.1 p.2 =
        ((mapGet state.values p.1).getD 0, none) := by
    intro p hp
    exact processNode_no_delta state graph 0 _ p.1 p.2 (by ring)
      (by simp [hdeltas, mapGet]) (hbounds p hp).1 (hbounds p hp).2
  constructor
  · intro p hp
    rw [computeStep_values rand state graph 0 p.1 p.2 hnd hp, hnode p hp]
  · rw [computeStep_breached]
    rw [List.findSome?_eq_none_iff]
    intro p hp
    rw [hnode p hp]

/-- Witness for C4 (amended): `dualBreachModel` before its first step, with
`dt = 0`. -/
theorem dt_zero_no_change_witness :
    (∀ p ∈ (compileGraph dualBreachModel).nodes,
      mapGet (computeStep rand0 (createInitialState rand0 dualBreachModel)
        (compileGraph dualBreachModel) 0).values p.1 =
        some ((mapGet (createInitialState rand0 dualBreachModel).values
          p.1).getD 0)) ∧
    (computeStep rand0 (createInitialState rand0 dualBreachModel)
      (compileGraph dualBreachModel) 0).breached = none :=
  dt_zero_no_change rand0 (createInitialState rand0 dualBreachModel)
    (compileGraph dualBreachModel) (by decide) (by decide) (by decide)

/-! ## Claim C5: edgeless models are frames -/

/-- Counterexample to C5 as stated: `evModel` has no edges, yet one step
changes `R` from `0` to `5` — a firing event with no outgoing edges broadcasts
its pulse to every regular node. -/
theorem no_edges_frame_counterexample :
    evModel.edges = [] ∧
    mapGet (stepN rand0 evModel 1 0).values "R" = some 0 ∧
    mapGet (stepN rand0 evModel 1 1).values "R" = some 5 ∧
    ¬ ((5 : ℚ) = 0) := by
  refine ⟨rfl, by decide, ?_, by norm_num⟩
  simp only [stepN, computeStep, createInitialState, compileGraph, evModel,
    evNode, regNode, isEventNode, processEvents, processNodes, processNode,
    edgeDelta, applyPulse, mapGet, mapSet, mapKeys, List.foldl, triggerReached,
    eventFires, computeNextTrigger]
  norm_num
  simp [mapGet]

/-- C5 (amended): for every model with no edges *and no event nodes* whose
node values respect their own bounds, stepping `N ≥ 1` times leaves every
node's value unchanged and increases the step counter by exactly `N`.  (With
an event node present the claim fails, because a firing event with no outgoing
edges broadcasts its pulse to every regular node:
`no_edges_frame_counterexample`.) -/
theorem no_edges_frame (rand : RandomOracle) (model : ModeliumModel) (dt : ℚ)
    (hnd : (model.nodes.map ModeliumNode.id).Nodup)
    (hedges : model.edges = [])
    (hnoev : ∀ n ∈ model.nodes, isEventNode n = false)
    (hbounds : ∀ n ∈ model.nodes,
      (∀ mn, n.min = some mn → mn ≤ n.value) ∧
      (∀ mx, n.max = some mx → n.value ≤ mx))
    (N : ℕ) (_hN : 1 ≤ N) :
    (∀ n ∈ model.nodes,
      mapGet (stepN rand model dt N).values n.id = some n.value) ∧
    (stepN rand model dt N).step = N := by
  have hgnodes : (compileGraph model).nodes =
      model.nodes.map (fun n => (n.id, n)) := compileGraph_nodes model hnd
  have hkeysnd : (mapKeys (compileGraph model).nodes).Nodup := by
    rw [hgnodes, mapKeys_entries]
    exact hnd
  have hev : (compileGraph model).eventNodes = [] := by
    rw [compileGraph_eventNodes model hnd,
      List.filter_eq_nil_iff.mpr (fun n hn => by simp [hnoev n hn])]
    rfl
  have hinc : (compileGraph model).incomingEdges =
      model.nodes.map (fun n => (n.id, ([] : List IncomingEdge))) := by
    have h0 : (compileGraph model).incomingEdges =
        model.nodes.foldl (fun m n => mapSet m n.id []) [] := by
      simp only [compileGraph, hedges, List.foldl_nil]
    rw [h0]
    simpa using foldl_mapSet_all (fun _ => ([] : List IncomingEdge))
      model.nodes [] hnd (by simp [mapKeys])
  have hdeltas : ∀ s : SimState,
      stepEventDeltas rand s (compileGraph model) = [] := by
    intro s
    simp only [stepEventDeltas, hev, processEvents]
  have main : ∀ k : ℕ,
      (∀ n ∈ model.nodes,
        mapGet (stepN rand model dt k).values n.id = some n.value) ∧
      (stepN rand model dt k).step = k := by
    intro k
    induction k with
    | zero =>
      refine ⟨fun n hn => ?_, rfl⟩
      rw [stepN, createInitialState_values rand model hnd]
      exact mapGet_eq_some_of_mem
        (by rw [mapKeys_entries]; exact hnd)
        (List.mem_map.mpr ⟨n, hn, rfl⟩)
    | succ k ih =>
      constructor
      · intro n hn
        have hmem : (n.id, n) ∈ (compileGraph model).nodes := by
          rw [hgnodes]
          exact List.mem_map.mpr ⟨n, hn, rfl⟩
        have hcur : (mapGet (stepN rand model dt k).values n.id).getD 0 =
            n.value := by rw [ih.1 n hn]; rfl
        have hincn : mapGet (compileGraph model).incomingEdges n.id =
            some ([] : List IncomingEdge) := by
          rw [hinc]
          refine mapGet_eq_some_of_mem ?_ (List.mem_map.mpr ⟨n, hn, rfl⟩)
          rw [mapKeys_entries]
          exact hnd
        rw [stepN, computeStep_values rand _ _ dt n.id n hkeysnd hmem,
          processNode_no_delta _ _ _ _ _ _
            (by rw [hincn]; simp [edgeDelta])
            (by rw [hdeltas]; rfl)
            (fun mn hmn => by rw [hcur]; exact (hbounds n hn).1 mn hmn)
            (fun mx hmx => by rw [hcur]; exact (hbounds n hn).2 mx hmx),
          hcur]
      · rw [stepN, computeStep_step, ih.2]
  exact main N

/-- Witness for C5 (amended): a one-node edgeless model stepped twice. -/
theorem no_edges_frame_witness :
    mapGet (stepN rand0 { nodes := [regNode], edges := [] } 1 2).values
      regNode.id = some regNode.value ∧
    (stepN rand0 { nodes := [regNode], edges := [] } 1 2).step = 2 :=
  ⟨(no_edges_frame rand0 { nodes := [regNode], edges := [] } 1 (by decide)
      rfl (by decide) (by decide) 2 (by norm_num)).1 regNode
      (List.mem_cons_self _ _),
   (no_edges_frame rand0 { nodes := [regNode], edges := [] } 1 (by decide)
      rfl (by decide) (by decide) 2 (by norm_num)).2⟩

/-! ## Claim C6: fixed-event determinism -/

theorem nat_next_multiple_le_iff (N k : ℕ) (hN : 0 < N) :
    N * (k / N + 1) ≤ k + 1 ↔ N ∣ (k + 1) := by
  have hexp : N * (k / N + 1) = N * (k / N) + N := by ring
  constructor
  · intro h
    have hmod := Nat.div_add_mod k N
    have hlt : k % N < N := Nat.mod_lt _ hN
    rw [hexp] at h
    exact ⟨k / N + 1, by rw [hexp]; omega⟩
  · intro h
    have h1 : (k + 1) / N = k / N + 1 := Nat.succ_div_of_dvd h
    have h2 : N * ((k + 1) / N) = k + 1 := Nat.mul_div_cancel' h
    rw [h1, hexp] at h2
    rw [hexp]
    omega

theorem nat_next_multiple_step_dvd (N k : ℕ) (h : N ∣ (k + 1)) :
    (k + 1) + N = N * ((k + 1) / N + 1) := by
  have h2 : N * ((k + 1) / N) = k + 1 := Nat.mul_div_cancel' h
  have hexp : N * ((k + 1) / N + 1) = N * ((k + 1) / N) + N := by ring
  rw [hexp]
  omega

theorem nat_next_multiple_step_not_dvd (N k : ℕ) (h : ¬ N ∣ (k + 1)) :
    N * (k / N + 1) = N * ((k + 1) / N + 1) := by
  rw [Nat.succ_div_of_not_dvd h]

/-- C6: An event node with fixed event type and interval `N` (initially
scheduled at state creation using step `0`, rescheduled upon firing using the
step at which it fired) fires exactly at steps `N, 2N, 3N, …` under
consecutive stepping, never at non-multiples, and never fires twice in the
same step. -/
theorem fixed_event_fires_at_multiples (rand : RandomOracle)
    (model : ModeliumModel) (dt : ℚ) (E : ModeliumNode) (N : ℕ)
    (hnd : (model.nodes.map ModeliumNode.id).Nodup)
    (hmem : E ∈ model.nodes)
    (hev : E.nodeType = some NodeType.event)
    (het : E.eventType = some EventType.fixed)
    (hint : E.interval = some (N : ℚ))
    (hN : 1 ≤ N) (k : ℕ) (hk : 1 ≤ k) :
    (E.id ∈ (stepN rand model dt k).triggeredEvents ↔ N ∣ k) ∧
    (stepN rand model dt k).triggeredEvents.count E.id ≤ 1 := by
  have hisev : isEventNode E = true := by simp [isEventNode, hev]
  have hfilter : E ∈ model.nodes.filter isEventNode :=
    List.mem_filter.mpr ⟨hmem, hisev⟩
  have hgev : (compileGraph model).eventNodes =
      (model.nodes.filter isEventNode).map (fun n => (n.id, n)) :=
    compileGraph_eventNodes model hnd
  have hkeysnd : (mapKeys (compileGraph model).eventNodes).Nodup := by
    rw [hgev, mapKeys_entries]
    exact ((List.filter_sublist model.nodes).map ModeliumNode.id).nodup hnd
  have hEmem : (E.id, E) ∈ (compileGraph model).eventNodes := by
    rw [hgev]
    exact List.mem_map.mpr ⟨E, hfilter, rfl⟩
  have hcnt : ∀ cs : ℕ, computeNextTrigger rand E cs =
      some ((cs : ℚ) + (N : ℚ)) := by
    intro cs
    simp [computeNextTrigger, hev, het, hint]
  have hstep : ∀ j : ℕ, (stepN rand model dt j).step = j := by
    intro j
    induction j with
    | zero => rfl
    | succ j ih => rw [stepN, computeStep_step, ih]
  have h0 : 0 < N := hN
  -- the schedule invariant: after j steps E's next trigger is the smallest
  -- multiple of N strictly greater than j
  have hinv : ∀ j : ℕ,
      mapGet (stepN rand model dt j).eventNextTrigger E.id =
        some (some ((N * (j / N + 1) : ℕ) : ℚ)) := by
    intro j
    induction j with
    | zero =>
      rw [stepN, createInitialState_nextTrigger rand model hnd]
      have hm : mapGet ((model.nodes.filter isEventNode).map
          (fun n => (n.id, computeNextTrigger rand n 0))) E.id =
          some (computeNextTrigger rand E 0) := by
        refine mapGet_eq_some_of_mem ?_ (List.mem_map.mpr ⟨E, hfilter, rfl⟩)
        rw [mapKeys_entries]
        exact ((List.filter_sublist model.nodes).map ModeliumNode.id).nodup hnd
      rw [hm, hcnt 0]
      norm_num
    | succ j ih =>
      rw [stepN, computeStep_nextTrigger rand _ _ dt E.id E hkeysnd hEmem]
      have hfires : eventFires (stepN rand model dt j) ((stepN rand model dt j).step + 1) E.id =
          decide (N * (j / N + 1) ≤ j + 1) := by
        rw [eventFires, ih, hstep j]
        simp only [triggerReached, decide_eq_decide]
        exact_mod_cast Iff.rfl
      by_cases hdvd : N ∣ (j + 1)
      · have hle : N * (j / N + 1) ≤ j + 1 :=
          (nat_next_multiple_le_iff N j h0).mpr hdvd
        rw [hfires, decide_eq_true hle]
        simp only [if_true, reduceIte]
        rw [hcnt, hstep j, ← nat_next_multiple_step_dvd N j hdvd]
        norm_num
      · have hle : ¬ N * (j / N + 1) ≤ j + 1 :=
          fun h => hdvd ((nat_next_multiple_le_iff N j h0).mp h)
        rw [hfires, decide_eq_false hle]
        simp only [Bool.false_eq_true, if_false, reduceIte]
        rw [ih, nat_next_multiple_step_not_dvd N j hdvd]
  obtain ⟨j, rfl⟩ : ∃ j, k = j + 1 := ⟨k - 1, by omega⟩
  have htrig : (stepN rand model dt (j + 1)).triggeredEvents =
      ((compileGraph model).eventNodes.filter
        (fun p => eventFires (stepN rand model dt j)
          ((stepN rand model dt j).step + 1) p.1)).map Prod.fst := by
    rw [stepN, computeStep_triggered]
  have hfires : eventFires (stepN rand model dt j)
      ((stepN rand model dt j).step + 1) E.id = decide (N ∣ (j + 1)) := by
    rw [eventFires, hinv j, hstep j]
    simp only [triggerReached, decide_eq_decide]
    exact_mod_cast nat_next_multiple_le_iff N j h0
  constructor
  · rw [htrig]
    constructor
    · intro hmem'
      obtain ⟨p, hp, hpid⟩ := List.mem_map.mp hmem'
      have hpfires := (List.mem_filter.mp hp).2
      rw [hpid] at hpfires
      rw [hfires] at hpfires
      exact of_decide_eq_true hpfires
    · intro hdvd
      refine List.mem_map.mpr ⟨(E.id, E), List.mem_filter.mpr ⟨hEmem, ?_⟩, rfl⟩
      rw [hfires]
      exact decide_eq_true hdvd
  · rw [htrig]
    calc (((compileGraph model).eventNodes.filter _).map Prod.fst).count E.id
        ≤ ((compileGraph model).eventNodes.map Prod.fst).count E.id :=
          ((List.filter_sublist _).map Prod.fst).count_le E.id
      _ ≤ 1 := List.nodup_iff_count_le_one.mp hkeysnd E.id

/-- Witness for C6: in `evModel3` (interval 3), step 3 fires (`3 ∣ 3`) exactly
once. -/
theorem fixed_event_fires_at_multiples_witness :
    (("E" : String) ∈ (stepN rand0 evModel3 1 3).triggeredEvents ↔ 3 ∣ 3) ∧
    (stepN rand0 evModel3 1 3).triggeredEvents.count "E" ≤ 1 :=
  fixed_event_fires_at_multiples rand0 evModel3 1 evNode3 3 (by decide)
    (List.mem_cons_self _ _) rfl rfl (by norm_num [evNode3]) (by norm_num) 3
    (by norm_num)

/-! ## Claim C7: messages before `init` -/

/-- Counterexample to C7 as stated: before any `init`, a `pause` message
yields no outbound message at all (in particular no `error`), and a
`setSpeed 100` message changes the session's interval setting from 16 to 100 —
neither behaves as "error result, session unaffected". -/
theorem uninitialized_error_counterexample :
    (handleMessage rand0 initialWorkerState SimMessage.pause).2 = [] ∧
    (handleMessage rand0 initialWorkerState
      (SimMessage.setSpeed 100)).1.intervalMs = 100 ∧
    initialWorkerState.intervalMs = 16 ∧ ¬ ((100 : ℚ) = 16) :=
  ⟨rfl, rfl, rfl, by norm_num⟩

/-- C7 (amended): before a session exists, the control messages `run`,
`resume`, `reset` and `step` each yield exactly an `error` result and leave
the worker state unchanged.  (The remaining pre-`init` messages do *not*
error: `pause` is silently ignored, `stop` emits `done` with the empty
history, and `setSpeed`/`updateBreakpoints` silently update the session's
settings.) -/
theorem uninitialized_rejected (rand : RandomOracle) (ws : WorkerState)
    (hstate : ws.state = none) (hinit : ws.initialState = none)
    (hloop : ws.loopId = false) :
    handleMessage rand ws SimMessage.run =
      (ws, [SimResult.error "Not initialized"]) ∧
    handleMessage rand ws SimMessage.resume =
      (ws, [SimResult.error "Not initialized"]) ∧
    handleMessage rand ws SimMessage.reset =
      (ws, [SimResult.error "Not initialized"]) ∧
    handleMessage rand ws SimMessage.step =
      (ws, [SimResult.error "Not initialized"]) := by
  obtain ⟨m, c, g, s, i, l, hist, iv, bps⟩ := ws
  simp only [] at hstate hinit hloop
  subst hstate hinit hloop
  refine ⟨?_, ?_, ?_, ?_⟩ <;> rfl

/-- Witness for C7 (amended): the worker's start state. -/
theorem uninitialized_rejected_witness :
    handleMessage rand0 initialWorkerState SimMessage.run =
      (initialWorkerState, [SimResult.error "Not initialized"]) ∧
    handleMessage rand0 initialWorkerState SimMessage.resume =
      (initialWorkerState, [SimResult.error "Not initialized"]) ∧
    handleMessage rand0 initialWorkerState SimMessage.reset =
      (initialWorkerState, [SimResult.error "Not initialized"]) ∧
    handleMessage rand0 initialWorkerState SimMessage.step =
      (initialWorkerState, [SimResult.error "Not initialized"]) :=
  uninitialized_rejected rand0 initialWorkerState rfl rfl rfl

/-! ## Claim C8: the `step` message -/

/-- C8: On an initialized session, the `step` message performs exactly one
step regardless of timer state, clearing any latched breach first (the new
engine state is `computeStep` applied to the session state with `breached`
cleared); a `stepped` message is emitted only if that single step triggers
neither a breach nor a breakpoint hit; if it does trigger one, the
corresponding `paused`/`breakpointHit` message is emitted and no `stepped`
message follows. -/
theorem step_message_behavior (rand : RandomOracle) (ws : WorkerState)
    (st : SimState) (graph : CompiledGraph) (config : SimConfig)
    (hst : ws.state = some st) (hg : ws.compiledGraph = some graph)
    (hc : ws.config = some config) (r : WorkerState × List SimResult)
    (hr : r = handleMessage rand ws SimMessage.step) (st' : SimState)
    (hst' : st' = computeStep rand { st with breached := none } graph
      config.dt) :
    (r.1.state = some st' ∧ st'.step = st.step + 1) ∧
    (∀ snap, SimResult.stepped snap ∈ r.2 →
      st'.breached = none ∧ checkBreakpoints ws.breakpoints st'.values = none) ∧
    (∀ b, st'.breached = some b →
      SimResult.paused b ∈ r.2 ∧ ∀ snap, SimResult.stepped snap ∉ r.2) ∧
    (∀ hit, st'.breached = none →
      checkBreakpoints ws.breakpoints st'.values = some hit →
      SimResult.breakpointHit hit ∈ r.2 ∧
        ∀ snap, SimResult.stepped snap ∉ r.2) := by
  subst hr hst'
  have hstep : (computeStep rand { st with breached := none } graph
      config.dt).step = st.step + 1 := computeStep_step _ _ _ _
  cases hb : (computeStep rand { st with breached := none } graph
      config.dt).breached with
  | some b =>
    simp only [handleMessage, hst, runStep, hg, hc, hb]
    simp [hb, hstep]
  | none =>
    cases hh : checkBreakpoints ws.breakpoints
        (computeStep rand { st with breached := none } graph
          config.dt).values with
    | some hit =>
      simp only [handleMessage, hst, runStep, hg, hc, hb, hh]
      simp [hb, hh, hstep]
    | none =>
      by_cases hbud : ((computeStep rand { st with breached := none } graph
          config.dt).step : ℚ) ≥ config.steps
      · simp only [handleMessage, hst, runStep, hg, hc, hb, hh, if_pos hbud]
        simp [hb, hh, hstep]
      · simp only [handleMessage, hst, runStep, hg, hc, hb, hh, if_neg hbud]
        simp [hb, hh, hstep]

/-- Witness for C8: the session `workerInit` (initialized on `evModel3`). -/
theorem step_message_behavior_witness :
    (handleMessage rand0 workerInit SimMessage.step).1.state =
      some (computeStep rand0
        { createInitialState rand0 evModel3 with breached := none }
        (compileGraph evModel3)
        ({ dt := 1, steps := 100, intervalMs := some 16 } : SimConfig).dt) ∧
    (computeStep rand0
      { createInitialState rand0 evModel3 with breached := none }
      (compileGraph evModel3)
      ({ dt := 1, steps := 100, intervalMs := some 16 } : SimConfig).dt).step =
      (createInitialState rand0 evModel3).step + 1 :=
  (step_message_behavior rand0 workerInit (createInitialState rand0 evModel3)
    (compileGraph evModel3) { dt := 1, steps := 100, intervalMs := some 16 }
    rfl rfl rfl _ rfl _ rfl).1

/-! ## Claim C9: breakpoint evaluation -/

theorem checkBreakpoints_some_elim (values : Assoc ℚ) :
    ∀ (bps : List Breakpoint) (hit : BreakpointHit),
      checkBreakpoints bps values = some hit →
      ∃ pre post, bps = pre ++ hit.breakpoint :: post ∧
        mapGet values hit.breakpoint.nodeId = some hit.actualValue ∧
        checkBreakpointCondition hit.breakpoint hit.actualValue = true ∧
        ∀ bp ∈ pre, mapGet values bp.nodeId = none ∨
          ∃ v, mapGet values bp.nodeId = some v ∧
            checkBreakpointCondition bp v = false
  | [], hit, h => by simp [checkBreakpoints] at h
  | bp :: rest, hit, h => by
    cases hl : mapGet values bp.nodeId with
    | some v =>
      by_cases hc : checkBreakpointCondition bp v = true
      · rw [checkBreakpoints, hl] at h
        simp only [hc, if_true, reduceIte, Option.some.injEq] at h
        subst h
        exact ⟨[], rest, rfl, hl, hc, by simp⟩
      · rw [checkBreakpoints, hl] at h
        simp only [hc, Bool.false_eq_true, if_false, reduceIte] at h
        obtain ⟨pre, post, hsplit, hlk, hcond, hpre⟩ :=
          checkBreakpoints_some_elim values rest hit h
        refine ⟨bp :: pre, post, by rw [hsplit]; rfl, hlk, hcond, ?_⟩
        intro bp' hbp'
        rcases List.mem_cons.mp hbp' with heq | htl
        · subst heq
          exact Or.inr ⟨v, hl, Bool.eq_false_iff.mpr hc⟩
        · exact hpre bp' htl
    | none =>
      rw [checkBreakpoints, hl] at h
      obtain ⟨pre, post, hsplit, hlk, hcond, hpre⟩ :=
        checkBreakpoints_some_elim values rest hit h
      refine ⟨bp :: pre, post, by rw [hsplit]; rfl, hlk, hcond, ?_⟩
      intro bp' hbp'
      rcases List.mem_cons.mp hbp' with heq | htl
      · subst heq
        exact Or.inl hl
      · exact hpre bp' htl

theorem checkBreakpoints_none_iff (values : Assoc ℚ) :
    ∀ bps : List Breakpoint,
      checkBreakpoints bps values = none ↔
      ∀ bp ∈ bps, mapGet values bp.nodeId = none ∨
        ∃ v, mapGet values bp.nodeId = some v ∧
          checkBreakpointCondition bp v = false
  | [] => by simp [checkBreakpoints]
  | bp :: rest => by
    cases hl : mapGet values bp.nodeId with
    | some v =>
      by_cases hc : checkBreakpointCondition bp v = true
      · rw [checkBreakpoints, hl]
        simp only [hc, if_true, reduceIte]
        constructor
        · intro h
          exact absurd h (by simp)
        · intro h
          rcases h bp (List.mem_cons_self _ _) with h' | ⟨v', hv', hc'⟩
          · rw [hl] at h'
            exact absurd h' (by simp)
          · rw [hl] at hv'
            cases hv'
            rw [hc] at hc'
            exact absurd hc' (by simp)
      · rw [checkBreakpoints, hl]
        simp only [hc, Bool.false_eq_true, if_false, reduceIte]
        rw [checkBreakpoints_none_iff values rest]
        constructor
        · intro h bp' hbp'
          rcases List.mem_cons.mp hbp' with heq | htl
          · subst heq
            exact Or.inr ⟨v, hl, Bool.eq_false_iff.mpr hc⟩
          · exact h bp' htl
        · intro h bp' hbp'
          exact h bp' (List.mem_cons_of_mem _ hbp')
    | none =>
      rw [checkBreakpoints, hl]
      rw [checkBreakpoints_none_iff values rest]
      constructor
      · intro h bp' hbp'
        rcases List.mem_cons.mp hbp' with heq | htl
        · subst heq
          exact Or.inl hl
        · exact h bp' htl
      · intro h bp' hbp'
        exact h bp' (List.mem_cons_of_mem _ hbp')

/-- C9: `checkBreakpoints` iterates the registered breakpoints in registration
order; a breakpoint whose node id is absent from the value map is silently
skipped; each condition is an exact numeric comparison (`eq` is equality with
no epsilon tolerance, `gt`/`lt`/`gte`/`lte` the standard comparisons); the
first matching breakpoint is returned together with the node's actual value,
every earlier breakpoint being skipped or failing; `none` is returned exactly
when no breakpoint matches. -/
theorem checkBreakpoints_first_match (bps : List Breakpoint)
    (values : Assoc ℚ) :
    (∀ hit, checkBreakpoints bps values = some hit →
      ∃ pre post, bps = pre ++ hit.breakpoint :: post ∧
        mapGet values hit.breakpoint.nodeId = some hit.actualValue ∧
        checkBreakpointCondition hit.breakpoint hit.actualValue = true ∧
        ∀ bp ∈ pre, mapGet values bp.nodeId = none ∨
          ∃ v, mapGet values bp.nodeId = some v ∧
            checkBreakpointCondition bp v = false) ∧
    (checkBreakpoints bps values = none ↔
      ∀ bp ∈ bps, mapGet values bp.nodeId = none ∨
        ∃ v, mapGet values bp.nodeId = some v ∧
          checkBreakpointCondition bp v = false) ∧
    (∀ (bp : Breakpoint) (v : ℚ),
      (bp.condition = BreakpointCondition.eq →
        (checkBreakpointCondition bp v = true ↔ v = bp.value)) ∧
      (bp.condition = BreakpointCondition.gt →
        (checkBreakpointCondition bp v = true ↔ v > bp.value)) ∧
      (bp.condition = BreakpointCondition.lt →
        (checkBreakpointCondition bp v = true ↔ v < bp.value)) ∧
      (bp.condition = BreakpointCondition.gte →
        (checkBreakpointCondition bp v = true ↔ v ≥ bp.value)) ∧
      (bp.condition = BreakpointCondition.lte →
        (checkBreakpointCondition bp v = true ↔ v ≤ bp.value))) := by
  refine ⟨fun hit h => checkBreakpoints_some_elim values bps hit h,
    checkBreakpoints_none_iff values bps, ?_⟩
  intro bp v
  refine ⟨fun h => ?_, fun h => ?_, fun h => ?_, fun h => ?_, fun h => ?_⟩ <;>
    simp [checkBreakpointCondition, h]

/-- Witness for C9: two breakpoints, the first on an absent node id and thus
skipped, the second matching exactly. -/
theorem checkBreakpoints_first_match_witness :
    ∃ pre post,
      [bpAbsent, bpEq] = pre ++ bpEq :: post ∧
      mapGet [("Y", (3 : ℚ))] bpEq.nodeId = some 3 ∧
      checkBreakpointCondition bpEq 3 = true ∧
      ∀ bp ∈ pre, mapGet [("Y", (3 : ℚ))] bp.nodeId = none ∨
        ∃ v, mapGet [("Y", (3 : ℚ))] bp.nodeId = some v ∧
          checkBreakpointCondition bp v = false :=
  (checkBreakpoints_first_match [bpAbsent, bpEq] [("Y", (3 : ℚ))]).1
    { breakpoint := bpEq, actualValue := 3 }
    (by decide)

/-! ## Claim C10: event pulses with no regular-node targets -/

/-- C10: If an event node fires on a step and it has at least one outgoing
edge but none of its outgoing targets is a regular node, its pulse is
delivered to no node at all — `applyPulse` leaves any delta accumulator
unchanged, because per-edge pulses are applied only to regular-node targets
and the broadcast fallback applies only to an empty outgoing list — while the
event is nevertheless recorded in `triggeredEvents` and rescheduled via
`computeNextTrigger` at the firing step. -/
theorem event_pulse_no_regular_targets (rand : RandomOracle)
    (state : SimState) (graph : CompiledGraph) (dt : ℚ) (eid : String)
    (node : ModeliumNode) (hnd : (mapKeys graph.eventNodes).Nodup)
    (hmem : mapGet graph.eventNodes eid = some node)
    (hfires : eventFires state (state.step + 1) eid = true)
    (hout : (mapGet graph.outgoingEdges eid).getD [] ≠ [])
    (hreg : ∀ t ∈ (mapGet graph.outgoingEdges eid).getD [],
      mapGet graph.regularNodes t = none) :
    (∀ (v : ℚ) (deltas : Assoc ℚ), applyPulse graph eid v deltas = deltas) ∧
    eid ∈ (computeStep rand state graph dt).triggeredEvents ∧
    mapGet (computeStep rand state graph dt).eventNextTrigger eid =
      some (computeNextTrigger rand node (state.step + 1)) := by
  have hentry : (eid, node) ∈ graph.eventNodes := mem_of_mapGet_eq_some hmem
  refine ⟨fun v deltas => applyPulse_no_regular_target graph eid v deltas hout hreg,
    ?_, ?_⟩
  · rw [computeStep_triggered]
    exact List.mem_map.mpr
      ⟨(eid, node), List.mem_filter.mpr ⟨hentry, by simpa using hfires⟩, rfl⟩
  · rw [computeStep_nextTrigger rand state graph dt eid node hnd hentry,
      if_pos (by simpa using hfires)]

/-- Witness for C10: in `evToEvModel`, event `E` fires at step 1, its only
outgoing edge points at the event node `F`, and its pulse reaches nobody. -/
theorem event_pulse_no_regular_targets_witness :
    applyPulse (compileGraph evToEvModel) "E" 7 [] = [] ∧
    ("E" : String) ∈ (computeStep rand0 (createInitialState rand0 evToEvModel)
      (compileGraph evToEvModel) 1).triggeredEvents ∧
    mapGet (computeStep rand0 (createInitialState rand0 evToEvModel)
      (compileGraph evToEvModel) 1).eventNextTrigger "E" =
      some (computeNextTrigger rand0 evNode
        ((createInitialState rand0 evToEvModel).step + 1)) := by
  have hfires : eventFires (createInitialState rand0 evToEvModel)
      ((createInitialState rand0 evToEvModel).step + 1) "E" = true := by
    simp only [eventFires, createInitialState, compileGraph, evToEvModel,
      evNode, evNodeTarget, regNode, isEventNode, computeNextTrigger, mapGet,
      mapSet, mapKeys, List.foldl, triggerReached]
    norm_num
  have h := event_pulse_no_regular_targets rand0
    (createInitialState rand0 evToEvModel) (compileGraph evToEvModel) 1 "E"
    evNode (by decide) (by decide) hfires (by decide) (by decide)
  exact ⟨h.1 7 [], h.2.1, h.2.2⟩
